import Mathlib

/-!
Verification development for `mkdocs-techdocs-core` (`src/core.py`).

The single source file defines a Configuration Augmenter (`TechDocsCore.on_config`)
that mutates a host build-configuration mapping in place: it writes a metadata file,
deep-merges a fixed core override, forces the default theme, swaps itself for two
auxiliary plugins, merges a fixed list of Markdown extensions with default options,
and redistributes "extra" sub-extension option blocks under their namespace.

The embedding below is a direct translation of that file.  Python dictionaries are
modelled as association lists with first-occurrence semantics (a well-formed Python
dict has pairwise-distinct keys, stated as `(keysOf m).Nodup` hypotheses where a
claim needs it); in-place mutation becomes explicit state passing; Python exceptions
(KeyError, TypeError, AttributeError) become `Option.none`.
-/

/-- Python values appearing inside configuration mappings: booleans, strings,
integers, function references (by name), lists and nested dictionaries. -/
inductive Value where
  | bool : Bool → Value
  | str : String → Value
  | int : Int → Value
  | fn : String → Value
  | list : List Value → Value
  | dict : List (String × Value) → Value

/-- A Python dictionary with `String` keys, as an association list
(first occurrence of a key is the binding a well-formed dict exposes). -/
abbrev PyDict (α : Type) := List (String × α)

/-- `m[key]` lookup: first binding of `key`, `none` when absent. -/
def lookupD {α : Type} : PyDict α → String → Option α
  | [], _ => none
  | (k, v) :: rest, key => if k = key then some v else lookupD rest key

/-- `key in m`. -/
def memKey {α : Type} (m : PyDict α) (key : String) : Bool :=
  (lookupD m key).isSome

/-- `m[key] = v`: replace the first binding of `key` in place, else append. -/
def setKey {α : Type} : PyDict α → String → α → PyDict α
  | [], key, v => [(key, v)]
  | (k, w) :: rest, key, v =>
    if k = key then (k, v) :: rest else (k, w) :: setKey rest key v

/-- `del m[key]`: remove the first binding of `key`. -/
def delKey {α : Type} : PyDict α → String → PyDict α
  | [], _ => []
  | (k, w) :: rest, key => if k = key then rest else (k, w) :: delKey rest key

/-- `m.update(c)`: set every binding of `c` into `m`, left to right. -/
def updateD {α : Type} (m c : PyDict α) : PyDict α :=
  c.foldl (fun acc kv => setKey acc kv.1 kv.2) m

/-- The keys of a dictionary, in order. -/
def keysOf {α : Type} (m : PyDict α) : List String :=
  m.map Prod.fst

/-- Number of bindings of `key` (a well-formed dict has at most one). -/
def countKey {α : Type} : PyDict α → String → Nat
  | [], _ => 0
  | (k, _) :: rest, key => (if k = key then 1 else 0) + countKey rest key

/-- `TECHDOCS_DEFAULT_THEME = "material"` (core.py line 31). -/
def TECHDOCS_DEFAULT_THEME : String := "material"

/-- The fixed core override mapping `core_configs` (core.py lines 51-56). -/
def core_configs : PyDict Value :=
  [("pymdownx.snippets", .dict [("restrict_base_path", .bool true)])]

mutual

/-- `merge_configs(core, user)` (core.py lines 59-64): for each `key, value` in
`core`, if `value` is a dict and `key in user` then recurse into `user[key]`,
otherwise `user[key] = value`.  The loop body is split into `mergeEntry` for
structural recursion. -/
def merge_configs : PyDict Value → PyDict Value → Option (PyDict Value)
  | [], user => some user
  | (key, v) :: rest, user =>
    match mergeEntry key v user with
    | some user' => merge_configs rest user'
    | none => none

/-- One iteration of the `merge_configs` loop for the item `key, v`.  Recursing
into a non-dict `user[key]` raises in Python whenever the core sub-dict is
nonempty (membership test or item assignment on a non-mapping), and is a no-op
when it is empty; both outcomes are modelled. -/
def mergeEntry (key : String) : Value → PyDict Value → Option (PyDict Value)
  | .dict d, user =>
    match lookupD user key with
    | some (.dict um) =>
      match merge_configs d um with
      | some merged => some (setKey user key (.dict merged))
      | none => none
    | some _ => if d.isEmpty then some user else none
    | none => some (setKey user key (.dict d))
  | v, user => some (setKey user key v)

end

/-- The theme descriptor (`mkdocs.theme.Theme`): a name plus dict-like state for
`features` (absent or a list of identifiers) and `palette`, and the attributes
`static_templates` (a set, modelled as a duplicate-free insertion list) and
`dirs` (the theme search-path list). -/
structure Theme where
  name : String
  features : Option (List String)
  palette : PyDict Value
  static_templates : List String
  dirs : List String

/-- Modelled from the spec: `Theme(name=TECHDOCS_DEFAULT_THEME)` constructs a fresh
default theme descriptor (core.py line 74); its field contents come from theme
data shipped outside this repository, so it is modelled as the minimal descriptor
carrying the fixed default name. -/
def defaultTheme : Theme :=
  { name := TECHDOCS_DEFAULT_THEME
    features := none
    palette := []
    static_templates := []
    dirs := [] }

/-- `set.update({x})`: insert an element into a set (no duplicate). -/
def insertTemplate (l : List String) (x : String) : List String :=
  if x ∈ l then l else l ++ [x]

/-- The theme block of `on_config` (core.py lines 72-89): replace a non-default
theme by a fresh default descriptor, ensure a `features` list exists, append the
two fixed feature identifiers, reset the palette, register the metadata file as a
static template and append the temporary directory to the search path. -/
def augmentTheme (tmpDir : String) (t0 : Theme) : Theme :=
  let t := if t0.name ≠ TECHDOCS_DEFAULT_THEME then defaultTheme else t0
  let feats := t.features.getD []
  { t with
    features := some (feats ++ ["navigation.footer", "content.action.edit"])
    palette := []
    static_templates := insertTemplate t.static_templates "techdocs_metadata.json"
    dirs := t.dirs ++ [tmpDir] }

/-- The kinds of plugin objects that occur in the registry. -/
inductive PluginKind where
  | searchDefault : PluginKind
  | searchMaterial : PluginKind
  | monorepo : PluginKind
  | techdocsCore : PluginKind
  | other : String → PluginKind

/-- A plugin object: its concrete kind and its `.config` mapping.  The auxiliary
plugins are constructed with `load_config({})`, whose resulting defaults live in
external packages; the claims only inspect the kind, so the loaded config is
modelled as empty. -/
structure Plugin where
  kind : PluginKind
  cfg : PyDict Value

/-- Python truthiness of a value (`if use_material_search:`). -/
def truthy : Value → Bool
  | .bool b => b
  | .str s => s != ""
  | .int n => n != 0
  | .fn _ => true
  | .list l => !l.isEmpty
  | .dict l => !l.isEmpty

/-- The plugin block of `on_config` (core.py lines 92-106): read
`use_material_search` from this plugin's own config (default `False`), delete the
`techdocs-core` entry, and install a search plugin (variant chosen by the flag)
and the monorepo plugin under the fixed keys.  A missing `techdocs-core` entry is
a Python `KeyError`. -/
def augmentPlugins (ps : PyDict Plugin) : Option (PyDict Plugin) :=
  match lookupD ps "techdocs-core" with
  | none => none
  | some tdc =>
    let use_material_search := truthy ((lookupD tdc.cfg "use_material_search").getD (.bool false))
    let ps1 := delKey ps "techdocs-core"
    let search_plugin : Plugin :=
      if use_material_search then { kind := .searchMaterial, cfg := [] }
      else { kind := .searchDefault, cfg := [] }
    let monorepo_plugin : Plugin := { kind := .monorepo, cfg := [] }
    some (setKey (setKey ps1 "search" search_plugin) "monorepo" monorepo_plugin)

/-- `merge_extension(extension, default_config)` (core.py lines 112-118): append
the identifier to `markdown_extensions` unless present; `update` the identifier's
entry of `mdx_configs` with the defaults, creating it when absent.  `update` on a
non-dict entry is a Python `AttributeError`. -/
def merge_extension (extension : String) (default_config : PyDict Value)
    (exts : List String) (mdx : PyDict Value) : Option (List String × PyDict Value) :=
  let exts' := if extension ∈ exts then exts else exts ++ [extension]
  match lookupD mdx extension with
  | some (.dict m) => some (exts', setKey mdx extension (.dict (updateD m default_config)))
  | some _ => none
  | none => some (exts', setKey mdx extension (.dict default_config))

/-- The fixed ordered list of `merge_extension` calls (core.py lines 120-140):
extension identifier and default option mapping, in source order. -/
def coreExtensionDefaults : List (String × PyDict Value) :=
  [ ("admonition", [])
  , ("toc", [("permalink", .bool true)])
  , ("pymdownx.caret", [])
  , ("pymdownx.critic", [])
  , ("pymdownx.details", [])
  , ("pymdownx.emoji", [("emoji_generator", .fn "to_svg")])
  , ("pymdownx.inlinehilite", [])
  , ("pymdownx.magiclink", [])
  , ("pymdownx.mark", [])
  , ("pymdownx.smartsymbols", [])
  , ("pymdownx.snippets", [])
  , ("pymdownx.highlight", [("linenums", .bool true), ("pygments_lang_class", .bool true)])
  , ("pymdownx.extra", [("smart_enable", .str "all")])
  , ("pymdownx.tabbed", [("alternate_style", .bool true)])
  , ("pymdownx.tasklist", [("custom_checkbox", .bool true)])
  , ("pymdownx.tilde", [])
  , ("markdown_inline_graphviz", [])
  , ("plantuml_markdown", [])
  , ("mdx_truly_sane_lists", []) ]

/-- Run the `merge_extension` calls in order over the extension list and
`mdx_configs` state. -/
def applyMergeExtensions :
    List (String × PyDict Value) → List String → PyDict Value →
    Option (List String × PyDict Value)
  | [], exts, mdx => some (exts, mdx)
  | (e, d) :: rest, exts, mdx =>
    match merge_extension e d exts mdx with
    | some (exts', mdx') => applyMergeExtensions rest exts' mdx'
    | none => none

/-- Modelled from the spec: the namespacing extension's exported list of "extra"
sub-extension identifiers (`pymdownx.extra.extra_extensions`), which lives in the
`pymdown-extensions` dependency, not in this repository's sources. -/
def extra_extensions : List String :=
  [ "pymdownx.betterem"
  , "markdown.extensions.tables"
  , "pymdownx.superfences"
  , "markdown.extensions.footnotes"
  , "markdown.extensions.attr_list"
  , "markdown.extensions.def_list"
  , "markdown.extensions.abbr"
  , "markdown.extensions.md_in_html" ]

/-- The redistribution loop (core.py lines 146-151): for each extra sub-extension
identifier present in `mdx_configs`, copy its option block under the
`pymdownx.extra` entry at that identifier's key, then delete the top-level entry.
Item assignment into a non-dict `pymdownx.extra` entry is a Python `TypeError`. -/
def redistribute : List String → PyDict Value → Option (PyDict Value)
  | [], mdx => some mdx
  | e :: rest, mdx =>
    if memKey mdx e then
      match lookupD mdx "pymdownx.extra", lookupD mdx e with
      | some (.dict em), some v =>
        redistribute rest (delKey (setKey mdx "pymdownx.extra" (.dict (setKey em e v))) e)
      | _, _ => none
    else redistribute rest mdx

/-- The template expression written into `techdocs_metadata.json`
(core.py lines 44-47): evaluated later by the host's template engine, it
serializes `site_name` and `site_description` as a JSON object. -/
def techdocsMetadataTemplate : String :=
  "\x7b\x7b \x7b\"site_name\": (config.site_name | string), \"site_description\": (config.site_description | string)\x7d | tojson \x7d\x7d"

/-- The host build configuration: a mapping with the four keys `on_config`
touches (each `Option` to model key absence) and `rest`, the untouched remainder
of the mapping (`site_name`, `site_description`, ...). -/
structure Config where
  theme : Option Theme
  plugins : Option (PyDict Plugin)
  markdown_extensions : Option (List String)
  mdx_configs : Option (PyDict Value)
  rest : PyDict Value

/-- `TechDocsCore.on_config` (core.py lines 39-153), with the instance's
temporary-directory name as `tmpDir`.  The result is the list of file writes
(path, content) together with the mutated configuration; `none` models an
uncaught Python exception aborting the build. -/
def on_config (tmpDir : String) (config : Config) :
    Option (List (String × String) × Config) :=
  let writes := [(tmpDir ++ "/techdocs_metadata.json", techdocsMetadataTemplate)]
  let mdx0 := config.mdx_configs.getD []
  match merge_configs core_configs mdx0 with
  | none => none
  | some mdx1 =>
    match config.theme with
    | none => none
    | some theme0 =>
      let theme1 := augmentTheme tmpDir theme0
      match config.plugins with
      | none => none
      | some ps =>
        match augmentPlugins ps with
        | none => none
        | some ps' =>
          let exts0 := config.markdown_extensions.getD []
          match applyMergeExtensions coreExtensionDefaults exts0 mdx1 with
          | none => none
          | some (exts1, mdx2) =>
            let mdx3 := if memKey mdx2 "pymdownx.extra" then mdx2
                        else setKey mdx2 "pymdownx.extra" (.dict [])
            match redistribute extra_extensions mdx3 with
            | none => none
            | some mdx4 =>
              some (writes,
                { config with
                  theme := some theme1
                  plugins := some ps'
                  markdown_extensions := some exts1
                  mdx_configs := some mdx4 })


/-! ### Dictionary lemmas -/

theorem lookupD_eq_none_iff {α : Type} {m : PyDict α} {k : String} :
    lookupD m k = none ↔ k ∉ keysOf m := by
  induction m with
  | nil => simp [lookupD, keysOf]
  | cons kv rest ih =>
    obtain ⟨k₀, w⟩ := kv
    by_cases hk : k₀ = k
    · subst hk
      simp [lookupD, keysOf]
    · simp [lookupD, keysOf, hk, Ne.symm hk, ih]

theorem lookupD_isSome_iff {α : Type} {m : PyDict α} {k : String} :
    (lookupD m k).isSome = true ↔ k ∈ keysOf m := by
  rw [Option.isSome_iff_ne_none]
  constructor
  · intro h
    by_contra hk
    exact h (lookupD_eq_none_iff.mpr hk)
  · intro h he
    exact (lookupD_eq_none_iff.mp he) h

theorem memKey_iff {α : Type} {m : PyDict α} {k : String} :
    memKey m k = true ↔ k ∈ keysOf m := by
  unfold memKey
  exact lookupD_isSome_iff

theorem lookupD_setKey_self {α : Type} (m : PyDict α) (k : String) (v : α) :
    lookupD (setKey m k v) k = some v := by
  induction m with
  | nil => simp [setKey, lookupD]
  | cons kv rest ih =>
    obtain ⟨k₀, w⟩ := kv
    by_cases hk : k₀ = k <;> simp [setKey, lookupD, hk, ih]

theorem lookupD_setKey_ne {α : Type} {m : PyDict α} {k k' : String} (v : α)
    (h : k' ≠ k) : lookupD (setKey m k v) k' = lookupD m k' := by
  induction m with
  | nil => simp [setKey, lookupD, Ne.symm h]
  | cons kv rest ih =>
    obtain ⟨k₀, w⟩ := kv
    by_cases hk : k₀ = k
    · subst hk
      simp [setKey, lookupD, Ne.symm h]
    · simp [setKey, lookupD, hk, ih]

theorem lookupD_delKey_ne {α : Type} {m : PyDict α} {k k' : String}
    (h : k' ≠ k) : lookupD (delKey m k) k' = lookupD m k' := by
  induction m with
  | nil => simp [delKey]
  | cons kv rest ih =>
    obtain ⟨k₀, w⟩ := kv
    by_cases hk : k₀ = k
    · subst hk
      simp [delKey, lookupD, Ne.symm h]
    · simp [delKey, lookupD, hk, ih]

theorem lookupD_delKey_of_none {α : Type} {m : PyDict α} {k e : String}
    (h : lookupD m k = none) : lookupD (delKey m e) k = none := by
  induction m with
  | nil => simpa [delKey] using h
  | cons kv rest ih =>
    obtain ⟨k₀, w⟩ := kv
    by_cases hk : k₀ = k
    · simp [lookupD, hk] at h
    · by_cases he : k₀ = e <;> simp_all [delKey, lookupD, hk, he]

theorem keysOf_cons {α : Type} (k : String) (v : α) (m : PyDict α) :
    keysOf ((k, v) :: m) = k :: keysOf m := rfl

theorem keysOf_setKey {α : Type} (m : PyDict α) (k : String) (v : α) :
    keysOf (setKey m k v) = if k ∈ keysOf m then keysOf m else keysOf m ++ [k] := by
  induction m with
  | nil => simp [setKey, keysOf]
  | cons kv rest ih =>
    obtain ⟨k₀, w⟩ := kv
    by_cases hk : k₀ = k
    · subst hk
      simp [setKey, keysOf]
    · have hne : ¬(k = k₀) := fun h => hk h.symm
      rw [show setKey ((k₀, w) :: rest) k v = (k₀, w) :: setKey rest k v by simp [setKey, hk],
        keysOf_cons, keysOf_cons, ih]
      by_cases hm : k ∈ keysOf rest
      · simp [List.mem_cons, hne, hm]
      · simp [List.mem_cons, hne, hm]

theorem nodup_keysOf_setKey {α : Type} {m : PyDict α} (k : String) (v : α)
    (h : (keysOf m).Nodup) : (keysOf (setKey m k v)).Nodup := by
  rw [keysOf_setKey]
  by_cases hm : k ∈ keysOf m
  · simpa [hm]
  · simp [hm, List.nodup_append, h]

theorem keysOf_delKey_sublist {α : Type} (m : PyDict α) (k : String) :
    (keysOf (delKey m k)).Sublist (keysOf m) := by
  induction m with
  | nil => simp [delKey]
  | cons kv rest ih =>
    obtain ⟨k₀, w⟩ := kv
    by_cases hk : k₀ = k
    · simp only [delKey, hk, if_pos rfl, keysOf, List.map_cons]
      exact (List.sublist_cons_self _ _)
    · simpa [delKey, hk, keysOf] using ih.cons₂ k₀

theorem nodup_keysOf_delKey {α : Type} {m : PyDict α} (k : String)
    (h : (keysOf m).Nodup) : (keysOf (delKey m k)).Nodup :=
  (keysOf_delKey_sublist m k).nodup h

theorem lookupD_delKey_self {α : Type} {m : PyDict α} {k : String}
    (h : (keysOf m).Nodup) : lookupD (delKey m k) k = none := by
  induction m with
  | nil => simp [delKey, lookupD]
  | cons kv rest ih =>
    obtain ⟨k₀, w⟩ := kv
    simp only [keysOf, List.map_cons, List.nodup_cons] at h
    by_cases hk : k₀ = k
    · subst hk
      simp only [delKey, if_pos rfl]
      exact lookupD_eq_none_iff.mpr h.1
    · simp [delKey, lookupD, hk, ih h.2]

theorem countKey_eq_count {α : Type} (m : PyDict α) (k : String) :
    countKey m k = (keysOf m).count k := by
  induction m with
  | nil => simp [countKey, keysOf]
  | cons kv rest ih =>
    obtain ⟨k₀, w⟩ := kv
    by_cases hk : k₀ = k <;>
      simp [countKey, keysOf, List.count_cons, hk, ih] <;> omega

theorem countKey_le_one {α : Type} {m : PyDict α} (k : String)
    (h : (keysOf m).Nodup) : countKey m k ≤ 1 := by
  rw [countKey_eq_count]
  exact List.nodup_iff_count_le_one.mp h k

theorem countKey_setKey_self {α : Type} (m : PyDict α) (k : String) (v : α) :
    countKey (setKey m k v) k = max (countKey m k) 1 := by
  induction m with
  | nil => simp [setKey, countKey]
  | cons kv rest ih =>
    obtain ⟨k₀, w⟩ := kv
    by_cases hk : k₀ = k <;> simp [setKey, countKey, hk, ih] <;> omega

theorem countKey_setKey_ne {α : Type} {m : PyDict α} {k k' : String} (v : α)
    (h : k' ≠ k) : countKey (setKey m k v) k' = countKey m k' := by
  induction m with
  | nil => simp [setKey, countKey, Ne.symm h]
  | cons kv rest ih =>
    obtain ⟨k₀, w⟩ := kv
    by_cases hk : k₀ = k
    · subst hk
      simp [setKey, countKey, Ne.symm h]
    · simp [setKey, countKey, hk, ih]

theorem countKey_delKey_ne {α : Type} {m : PyDict α} {k k' : String}
    (h : k' ≠ k) : countKey (delKey m k) k' = countKey m k' := by
  induction m with
  | nil => simp [delKey]
  | cons kv rest ih =>
    obtain ⟨k₀, w⟩ := kv
    by_cases hk : k₀ = k
    · subst hk
      simp [delKey, countKey, Ne.symm h]
    · simp [delKey, countKey, hk, ih]

theorem setKey_of_lookupD_eq {α : Type} {m : PyDict α} {k : String} {v : α}
    (h : lookupD m k = some v) : setKey m k v = m := by
  induction m with
  | nil => simp [lookupD] at h
  | cons kv rest ih =>
    obtain ⟨k₀, w⟩ := kv
    by_cases hk : k₀ = k
    · subst hk
      simp only [lookupD, if_true, eq_self_iff_true, Option.some.injEq] at h
      simp [setKey, h]
    · simp only [lookupD, hk, if_false, if_neg hk] at h
      simp [setKey, hk, ih h]

theorem setKey_cons_ne {α : Type} (m : PyDict α) {k₀ k : String} (w v : α)
    (h : k₀ ≠ k) : setKey ((k₀, w) :: m) k v = (k₀, w) :: setKey m k v := by
  simp [setKey, h]

theorem updateD_nil {α : Type} (m : PyDict α) : updateD m [] = m := rfl

theorem updateD_cons {α : Type} (m : PyDict α) (k : String) (v : α) (c : PyDict α) :
    updateD m ((k, v) :: c) = updateD (setKey m k v) c := rfl

theorem lookupD_updateD_not_mem {α : Type} {m c : PyDict α} {k : String}
    (h : k ∉ keysOf c) : lookupD (updateD m c) k = lookupD m k := by
  induction c generalizing m with
  | nil => rfl
  | cons kv rest ih =>
    obtain ⟨k₁, v₁⟩ := kv
    simp only [keysOf, List.map_cons, List.mem_cons, not_or] at h
    rw [updateD_cons, ih (by simpa [keysOf] using h.2), lookupD_setKey_ne _ h.1]

theorem lookupD_updateD_mem {α : Type} {m c : PyDict α} {k : String} {v : α}
    (hnd : (keysOf c).Nodup) (h : lookupD c k = some v) :
    lookupD (updateD m c) k = some v := by
  induction c generalizing m with
  | nil => simp [lookupD] at h
  | cons kv rest ih =>
    obtain ⟨k₁, v₁⟩ := kv
    simp only [keysOf, List.map_cons, List.nodup_cons] at hnd
    by_cases hk : k₁ = k
    · subst hk
      simp only [lookupD, if_true, eq_self_iff_true, Option.some.injEq] at h
      rw [updateD_cons, lookupD_updateD_not_mem (by simpa [keysOf] using hnd.1),
        lookupD_setKey_self, h]
    · simp only [lookupD, if_neg hk] at h
      rw [updateD_cons]
      exact ih hnd.2 h

theorem updateD_cons_not_mem {α : Type} {c : PyDict α} {k : String} (m : PyDict α) (v : α)
    (h : k ∉ keysOf c) : updateD ((k, v) :: m) c = (k, v) :: updateD m c := by
  induction c generalizing m with
  | nil => rfl
  | cons kv rest ih =>
    obtain ⟨k₁, v₁⟩ := kv
    simp only [keysOf, List.map_cons, List.mem_cons, not_or] at h
    rw [updateD_cons, setKey_cons_ne _ _ _ h.1, ih _ (by simpa [keysOf] using h.2),
      updateD_cons]

theorem updateD_nil_self {α : Type} {c : PyDict α}
    (h : (keysOf c).Nodup) : updateD [] c = c := by
  induction c with
  | nil => rfl
  | cons kv rest ih =>
    obtain ⟨k₁, v₁⟩ := kv
    simp only [keysOf, List.map_cons, List.nodup_cons] at h
    rw [updateD_cons]
    show updateD [(k₁, v₁)] rest = (k₁, v₁) :: rest
    rw [show ([(k₁, v₁)] : PyDict α) = (k₁, v₁) :: [] from rfl,
      updateD_cons_not_mem _ _ (by simpa [keysOf] using h.1), ih h.2]

theorem updateD_idem {α : Type} {c : PyDict α} (m : PyDict α)
    (h : (keysOf c).Nodup) : updateD (updateD m c) c = updateD m c := by
  induction c generalizing m with
  | nil => rfl
  | cons kv rest ih =>
    obtain ⟨k₁, v₁⟩ := kv
    simp only [keysOf, List.map_cons, List.nodup_cons] at h
    rw [updateD_cons, updateD_cons]
    have hs : setKey (updateD (setKey m k₁ v₁) rest) k₁ v₁ = updateD (setKey m k₁ v₁) rest := by
      apply setKey_of_lookupD_eq
      rw [lookupD_updateD_not_mem (by simpa [keysOf] using h.1), lookupD_setKey_self]
    calc updateD (setKey (updateD (setKey m k₁ v₁) rest) k₁ v₁) rest
        = updateD (updateD (setKey m k₁ v₁) rest) rest := by rw [hs]
      _ = updateD (setKey m k₁ v₁) rest := ih _ h.2

theorem updateD_self_idem {α : Type} {c : PyDict α}
    (h : (keysOf c).Nodup) : updateD c c = c := by
  have h0 := updateD_idem (c := c) [] h
  rwa [updateD_nil_self h] at h0

theorem nodup_keysOf_updateD {α : Type} {m : PyDict α} (c : PyDict α)
    (h : (keysOf m).Nodup) : (keysOf (updateD m c)).Nodup := by
  induction c generalizing m with
  | nil => exact h
  | cons kv rest ih =>
    obtain ⟨k₁, v₁⟩ := kv
    rw [updateD_cons]
    exact ih (nodup_keysOf_setKey _ _ h)

/-! ### Stage characterizations -/

theorem mem_keysOf_of_mem {α : Type} {m : PyDict α} {k : String} {v : α}
    (h : (k, v) ∈ m) : k ∈ keysOf m :=
  List.mem_map_of_mem Prod.fst h

theorem memKey_of_lookupD {α : Type} {m : PyDict α} {k : String} {v : α}
    (h : lookupD m k = some v) : memKey m k = true := by
  unfold memKey
  rw [h]
  rfl

theorem merge_configs_core_cases {u u' : PyDict Value}
    (h : merge_configs core_configs u = some u') :
    (lookupD u "pymdownx.snippets" = none ∧
      u' = setKey u "pymdownx.snippets" (.dict [("restrict_base_path", .bool true)])) ∨
    (∃ m0, lookupD u "pymdownx.snippets" = some (.dict m0) ∧
      u' = setKey u "pymdownx.snippets" (.dict (setKey m0 "restrict_base_path" (.bool true)))) := by
  cases h0 : lookupD u "pymdownx.snippets" with
  | none =>
    left
    refine ⟨rfl, ?_⟩
    simp [core_configs, merge_configs, mergeEntry, h0] at h
    exact h.symm
  | some v =>
    cases v with
    | dict m0 =>
      right
      refine ⟨m0, rfl, ?_⟩
      simp [core_configs, merge_configs, mergeEntry, h0] at h
      exact h.symm
    | bool b => simp [core_configs, merge_configs, mergeEntry, h0, List.isEmpty] at h
    | str s => simp [core_configs, merge_configs, mergeEntry, h0, List.isEmpty] at h
    | int n => simp [core_configs, merge_configs, mergeEntry, h0, List.isEmpty] at h
    | fn f => simp [core_configs, merge_configs, mergeEntry, h0, List.isEmpty] at h
    | list l => simp [core_configs, merge_configs, mergeEntry, h0, List.isEmpty] at h

theorem augmentPlugins_spec {ps ps' : PyDict Plugin}
    (h : augmentPlugins ps = some ps') :
    ∃ tdc, lookupD ps "techdocs-core" = some tdc ∧
      ps' = setKey (setKey (delKey ps "techdocs-core") "search"
          (if truthy ((lookupD tdc.cfg "use_material_search").getD (.bool false))
            then { kind := .searchMaterial, cfg := [] }
            else { kind := .searchDefault, cfg := [] }))
        "monorepo" { kind := .monorepo, cfg := [] } := by
  cases h0 : lookupD ps "techdocs-core" with
  | none => simp [augmentPlugins, h0] at h
  | some tdc =>
    refine ⟨tdc, rfl, ?_⟩
    simp only [augmentPlugins, h0, Option.some.injEq] at h
    exact h.symm

theorem merge_extension_spec {e : String} {d : PyDict Value} {exts exts' : List String}
    {mdx mdx' : PyDict Value}
    (h : merge_extension e d exts mdx = some (exts', mdx')) :
    exts' = (if e ∈ exts then exts else exts ++ [e]) ∧
    ((∃ m, lookupD mdx e = some (.dict m) ∧ mdx' = setKey mdx e (.dict (updateD m d))) ∨
     (lookupD mdx e = none ∧ mdx' = setKey mdx e (.dict d))) := by
  cases h0 : lookupD mdx e with
  | none =>
    simp only [merge_extension, h0, Option.some.injEq, Prod.mk.injEq] at h
    exact ⟨h.1.symm, Or.inr ⟨rfl, h.2.symm⟩⟩
  | some v =>
    cases v with
    | dict m =>
      simp only [merge_extension, h0, Option.some.injEq, Prod.mk.injEq] at h
      exact ⟨h.1.symm, Or.inl ⟨m, rfl, h.2.symm⟩⟩
    | bool b => simp [merge_extension, h0] at h
    | str s => simp [merge_extension, h0] at h
    | int n => simp [merge_extension, h0] at h
    | fn f => simp [merge_extension, h0] at h
    | list l => simp [merge_extension, h0] at h

theorem ame_exts_mono {L : List (String × PyDict Value)} {exts exts' : List String}
    {mdx mdx' : PyDict Value}
    (h : applyMergeExtensions L exts mdx = some (exts', mdx'))
    {x : String} (hx : x ∈ exts) : x ∈ exts' := by
  induction L generalizing exts mdx with
  | nil =>
    simp only [applyMergeExtensions, Option.some.injEq, Prod.mk.injEq] at h
    exact h.1 ▸ hx
  | cons p rest ih =>
    obtain ⟨e, d⟩ := p
    cases hme : merge_extension e d exts mdx with
    | none => simp [applyMergeExtensions, hme] at h
    | some s =>
      obtain ⟨exts1, mdx1⟩ := s
      simp only [applyMergeExtensions, hme] at h
      have hspec := merge_extension_spec hme
      refine ih h ?_
      rw [hspec.1]
      by_cases he : e ∈ exts <;> simp [he, hx]

theorem ame_count_le {L : List (String × PyDict Value)} {exts exts' : List String}
    {mdx mdx' : PyDict Value}
    (h : applyMergeExtensions L exts mdx = some (exts', mdx'))
    (x : String) (hc : List.count x exts ≤ 1) : List.count x exts' ≤ 1 := by
  induction L generalizing exts mdx with
  | nil =>
    simp only [applyMergeExtensions, Option.some.injEq, Prod.mk.injEq] at h
    exact h.1 ▸ hc
  | cons p rest ih =>
    obtain ⟨e, d⟩ := p
    cases hme : merge_extension e d exts mdx with
    | none => simp [applyMergeExtensions, hme] at h
    | some s =>
      obtain ⟨exts1, mdx1⟩ := s
      simp only [applyMergeExtensions, hme] at h
      have hspec := merge_extension_spec hme
      refine ih h ?_
      rw [hspec.1]
      by_cases he : e ∈ exts
      · simpa [he] using hc
      · rw [if_neg he, List.count_append]
        by_cases hx : x = e
        · subst hx
          have : List.count x exts = 0 := by
            rw [List.count_eq_zero]
            exact he
          simp [this, List.count_cons]
        · simp [List.count_cons, hx, hc]

theorem ame_mem_pair {L : List (String × PyDict Value)} {exts exts' : List String}
    {mdx mdx' : PyDict Value}
    (h : applyMergeExtensions L exts mdx = some (exts', mdx'))
    {e : String} {d : PyDict Value} (hp : (e, d) ∈ L) : e ∈ exts' := by
  induction L generalizing exts mdx with
  | nil => simp at hp
  | cons p rest ih =>
    obtain ⟨e₀, d₀⟩ := p
    cases hme : merge_extension e₀ d₀ exts mdx with
    | none => simp [applyMergeExtensions, hme] at h
    | some s =>
      obtain ⟨exts1, mdx1⟩ := s
      simp only [applyMergeExtensions, hme] at h
      have hspec := merge_extension_spec hme
      rcases List.mem_cons.mp hp with heq | hrest
      · cases heq
        refine ame_exts_mono h ?_
        rw [hspec.1]
        by_cases he : e ∈ exts <;> simp [he]
      · exact ih h hrest

theorem ame_lookup_not_mem {L : List (String × PyDict Value)} {exts exts' : List String}
    {mdx mdx' : PyDict Value}
    (h : applyMergeExtensions L exts mdx = some (exts', mdx'))
    {k : String} (hk : k ∉ keysOf L) : lookupD mdx' k = lookupD mdx k := by
  induction L generalizing exts mdx with
  | nil =>
    simp only [applyMergeExtensions, Option.some.injEq, Prod.mk.injEq] at h
    rw [h.2]
  | cons p rest ih =>
    obtain ⟨e, d⟩ := p
    simp only [keysOf, List.map_cons, List.mem_cons, not_or] at hk
    cases hme : merge_extension e d exts mdx with
    | none => simp [applyMergeExtensions, hme] at h
    | some s =>
      obtain ⟨exts1, mdx1⟩ := s
      simp only [applyMergeExtensions, hme] at h
      have hspec := merge_extension_spec hme
      have hstep : lookupD mdx1 k = lookupD mdx k := by
        rcases hspec.2 with ⟨m, _, rfl⟩ | ⟨_, rfl⟩ <;>
          exact lookupD_setKey_ne _ hk.1
      rw [ih h (by simpa [keysOf] using hk.2), hstep]

theorem ame_entry {L : List (String × PyDict Value)} {exts exts' : List String}
    {mdx mdx' : PyDict Value}
    (h : applyMergeExtensions L exts mdx = some (exts', mdx'))
    (hnd : (keysOf L).Nodup) {e : String} {d : PyDict Value} (hmem : (e, d) ∈ L) :
    (lookupD mdx e = none → lookupD mdx' e = some (.dict d)) ∧
    (∀ m, lookupD mdx e = some (.dict m) → lookupD mdx' e = some (.dict (updateD m d))) ∧
    (∀ v, lookupD mdx e = some v → ∃ m, v = .dict m) := by
  induction L generalizing exts mdx with
  | nil => simp at hmem
  | cons p rest ih =>
    obtain ⟨e₀, d₀⟩ := p
    rw [keysOf_cons, List.nodup_cons] at hnd
    cases hme : merge_extension e₀ d₀ exts mdx with
    | none => simp [applyMergeExtensions, hme] at h
    | some s =>
      obtain ⟨exts1, mdx1⟩ := s
      simp only [applyMergeExtensions, hme] at h
      have hspec := merge_extension_spec hme
      rcases List.mem_cons.mp hmem with heq | hrest
      · cases heq
        have hrest_pres : lookupD mdx' e = lookupD mdx1 e :=
          ame_lookup_not_mem h hnd.1
        refine ⟨?_, ?_, ?_⟩
        · intro h0
          rcases hspec.2 with ⟨m, hm, rfl⟩ | ⟨_, rfl⟩
          · rw [h0] at hm
            exact absurd hm (by simp)
          · rw [hrest_pres, lookupD_setKey_self]
        · intro m hm
          rcases hspec.2 with ⟨m₁, hm₁, rfl⟩ | ⟨h0, rfl⟩
          · rw [hm] at hm₁
            injection hm₁ with hm₁
            cases hm₁
            rw [hrest_pres, lookupD_setKey_self]
          · rw [h0] at hm
            exact absurd hm (by simp)
        · intro v hv
          rcases hspec.2 with ⟨m₁, hm₁, _⟩ | ⟨h0, _⟩
          · rw [hv] at hm₁
            injection hm₁ with hm₁
            exact ⟨m₁, hm₁⟩
          · rw [h0] at hv
            exact absurd hv (by simp)
      · have hne : e ≠ e₀ := by
          intro hh
          exact hnd.1 (hh ▸ mem_keysOf_of_mem hrest)
        have hstep : lookupD mdx1 e = lookupD mdx e := by
          rcases hspec.2 with ⟨m, _, rfl⟩ | ⟨_, rfl⟩ <;>
            exact lookupD_setKey_ne _ hne
        have := ih h hnd.2 hrest
        rw [hstep] at this
        exact this

theorem ame_nodup {L : List (String × PyDict Value)} {exts exts' : List String}
    {mdx mdx' : PyDict Value}
    (h : applyMergeExtensions L exts mdx = some (exts', mdx'))
    (hnd : (keysOf mdx).Nodup) : (keysOf mdx').Nodup := by
  induction L generalizing exts mdx with
  | nil =>
    simp only [applyMergeExtensions, Option.some.injEq, Prod.mk.injEq] at h
    exact h.2 ▸ hnd
  | cons p rest ih =>
    obtain ⟨e, d⟩ := p
    cases hme : merge_extension e d exts mdx with
    | none => simp [applyMergeExtensions, hme] at h
    | some s =>
      obtain ⟨exts1, mdx1⟩ := s
      simp only [applyMergeExtensions, hme] at h
      have hspec := merge_extension_spec hme
      refine ih h ?_
      rcases hspec.2 with ⟨m, _, rfl⟩ | ⟨_, rfl⟩ <;>
        exact nodup_keysOf_setKey _ _ hnd

theorem ame_noop {L : List (String × PyDict Value)} {exts : List String} {mdx : PyDict Value}
    (hc : ∀ p ∈ L, p.1 ∈ exts ∧ ∃ m, lookupD mdx p.1 = some (.dict m) ∧ updateD m p.2 = m) :
    applyMergeExtensions L exts mdx = some (exts, mdx) := by
  induction L with
  | nil => rfl
  | cons p rest ih =>
    obtain ⟨e, d⟩ := p
    have he : e ∈ exts := (hc (e, d) (List.mem_cons_self _ _)).1
    obtain ⟨m, hm, hu⟩ :=
      show ∃ m, lookupD mdx e = some (.dict m) ∧ updateD m d = m from
        (hc (e, d) (List.mem_cons_self _ _)).2
    have hme : merge_extension e d exts mdx = some (exts, mdx) := by
      unfold merge_extension
      rw [hm]
      dsimp only
      rw [hu, setKey_of_lookupD_eq hm, if_pos he]
    simp only [applyMergeExtensions, hme]
    exact ih (fun p hp => hc p (List.mem_cons_of_mem _ hp))

theorem ame_post {L : List (String × PyDict Value)} {exts exts' : List String}
    {mdx mdx' : PyDict Value}
    (h : applyMergeExtensions L exts mdx = some (exts', mdx'))
    (hndL : (keysOf L).Nodup) (hd : ∀ p ∈ L, (keysOf p.2).Nodup) :
    ∀ p ∈ L, p.1 ∈ exts' ∧ ∃ m, lookupD mdx' p.1 = some (.dict m) ∧ updateD m p.2 = m := by
  intro p hp
  obtain ⟨e, d⟩ := p
  refine ⟨ame_mem_pair h hp, ?_⟩
  have hent := ame_entry h hndL hp
  cases h0 : lookupD mdx e with
  | none =>
    exact ⟨d, hent.1 h0, updateD_self_idem (hd _ hp)⟩
  | some v =>
    obtain ⟨m, rfl⟩ := hent.2.2 v h0
    exact ⟨updateD m d, hent.2.1 m h0, updateD_idem m (hd _ hp)⟩

theorem redistribute_cons_spec {e : String} {rest : List String} {mdx mdx' : PyDict Value}
    (h : redistribute (e :: rest) mdx = some mdx') :
    (memKey mdx e = false ∧ redistribute rest mdx = some mdx') ∨
    (∃ em v, lookupD mdx "pymdownx.extra" = some (.dict em) ∧ lookupD mdx e = some v ∧
      redistribute rest (delKey (setKey mdx "pymdownx.extra" (.dict (setKey em e v))) e)
        = some mdx') := by
  by_cases hm : memKey mdx e
  · right
    cases h1 : lookupD mdx "pymdownx.extra" with
    | none =>
      cases h2 : lookupD mdx e <;> simp [redistribute, hm, h1, h2] at h
    | some vex =>
      cases h2 : lookupD mdx e with
      | none =>
        exfalso
        unfold memKey at hm
        rw [h2] at hm
        simp at hm
      | some v =>
        cases vex with
        | dict em =>
          refine ⟨em, v, rfl, rfl, ?_⟩
          simpa [redistribute, hm, h1, h2] using h
        | bool b => simp [redistribute, hm, h1, h2] at h
        | str s => simp [redistribute, hm, h1, h2] at h
        | int n => simp [redistribute, hm, h1, h2] at h
        | fn f => simp [redistribute, hm, h1, h2] at h
        | list l => simp [redistribute, hm, h1, h2] at h
  · left
    exact ⟨by simpa using hm, by simpa [redistribute, hm] using h⟩

theorem redis_lookup_ne {L : List String} {mdx mdx' : PyDict Value}
    (h : redistribute L mdx = some mdx') {k : String}
    (hkL : k ∉ L) (hke : k ≠ "pymdownx.extra") :
    lookupD mdx' k = lookupD mdx k := by
  induction L generalizing mdx with
  | nil =>
    simp only [redistribute, Option.some.injEq] at h
    rw [h]
  | cons e rest ih =>
    simp only [List.mem_cons, not_or] at hkL
    rcases redistribute_cons_spec h with ⟨_, h'⟩ | ⟨em, v, h1, h2, h'⟩
    · exact ih h' hkL.2
    · rw [ih h' hkL.2, lookupD_delKey_ne hkL.1, lookupD_setKey_ne _ hke]

theorem redis_none_preserved {L : List String} {mdx mdx' : PyDict Value}
    (h : redistribute L mdx = some mdx') {k : String}
    (hk : lookupD mdx k = none) (hke : k ≠ "pymdownx.extra") :
    lookupD mdx' k = none := by
  induction L generalizing mdx with
  | nil =>
    simp only [redistribute, Option.some.injEq] at h
    rw [← h]
    exact hk
  | cons e rest ih =>
    rcases redistribute_cons_spec h with ⟨_, h'⟩ | ⟨em, v, h1, h2, h'⟩
    · exact ih h' hk
    · refine ih h' ?_
      apply lookupD_delKey_of_none
      rw [lookupD_setKey_ne _ hke]
      exact hk

theorem redis_extra {L : List String} {mdx mdx' : PyDict Value}
    (h : redistribute L mdx = some mdx')
    (hL : "pymdownx.extra" ∉ L) {em : PyDict Value}
    (hem : lookupD mdx "pymdownx.extra" = some (.dict em)) :
    ∃ em', lookupD mdx' "pymdownx.extra" = some (.dict em') ∧
      ∀ k, k ∉ L → lookupD em' k = lookupD em k := by
  induction L generalizing mdx em with
  | nil =>
    simp only [redistribute, Option.some.injEq] at h
    exact ⟨em, h ▸ hem, fun k _ => rfl⟩
  | cons e rest ih =>
    simp only [List.mem_cons, not_or] at hL
    rcases redistribute_cons_spec h with ⟨_, h'⟩ | ⟨em₀, v, h1, h2, h'⟩
    · obtain ⟨em', h3, h4⟩ := ih h' hL.2 hem
      refine ⟨em', h3, fun k hk => ?_⟩
      simp only [List.mem_cons, not_or] at hk
      exact h4 k hk.2
    · rw [hem] at h1
      injection h1 with h1
      injection h1 with h1
      subst h1
      have hem1 : lookupD (delKey (setKey mdx "pymdownx.extra" (.dict (setKey em e v))) e)
          "pymdownx.extra" = some (.dict (setKey em e v)) := by
        rw [lookupD_delKey_ne hL.1, lookupD_setKey_self]
      obtain ⟨em', h3, h4⟩ := ih h' hL.2 hem1
      refine ⟨em', h3, fun k hk => ?_⟩
      simp only [List.mem_cons, not_or] at hk
      rw [h4 k hk.2, lookupD_setKey_ne _ hk.1]

theorem redis_nodup {L : List String} {mdx mdx' : PyDict Value}
    (h : redistribute L mdx = some mdx')
    (hnd : (keysOf mdx).Nodup) : (keysOf mdx').Nodup := by
  induction L generalizing mdx with
  | nil =>
    simp only [redistribute, Option.some.injEq] at h
    exact h ▸ hnd
  | cons e rest ih =>
    rcases redistribute_cons_spec h with ⟨_, h'⟩ | ⟨em, v, h1, h2, h'⟩
    · exact ih h' hnd
    · exact ih h' (nodup_keysOf_delKey _ (nodup_keysOf_setKey _ _ hnd))

theorem redis_member {L : List String} {mdx mdx' : PyDict Value}
    (h : redistribute L mdx = some mdx') (hnd : (keysOf mdx).Nodup)
    (hex : "pymdownx.extra" ∉ L) (hndL : L.Nodup)
    {e : String} {v : Value} (he : e ∈ L) (hv : lookupD mdx e = some v) :
    lookupD mdx' e = none ∧
      ∃ em', lookupD mdx' "pymdownx.extra" = some (.dict em') ∧ lookupD em' e = some v := by
  induction L generalizing mdx with
  | nil => simp at he
  | cons e₀ rest ih =>
    simp only [List.mem_cons, not_or] at hex
    rw [List.nodup_cons] at hndL
    rcases redistribute_cons_spec h with ⟨hm, h'⟩ | ⟨em, v₀, h1, h2, h'⟩
    · rcases List.mem_cons.mp he with rfl | herest
      · exfalso
        unfold memKey at hm
        rw [hv] at hm
        simp at hm
      · exact ih h' hnd hex.2 hndL.2 herest hv
    · rcases List.mem_cons.mp he with rfl | herest
      · rw [hv] at h2
        injection h2 with h2
        subst h2
        have hnone : lookupD (delKey (setKey mdx "pymdownx.extra"
            (.dict (setKey em e v))) e) e = none :=
          lookupD_delKey_self (nodup_keysOf_setKey _ _ hnd)
        have hnone' : lookupD mdx' e = none :=
          redis_none_preserved h' hnone (Ne.symm hex.1)
        have hem1 : lookupD (delKey (setKey mdx "pymdownx.extra"
            (.dict (setKey em e v))) e) "pymdownx.extra"
            = some (.dict (setKey em e v)) := by
          rw [lookupD_delKey_ne hex.1, lookupD_setKey_self]
        obtain ⟨em', h3, h4⟩ := redis_extra h' hex.2 hem1
        refine ⟨hnone', em', h3, ?_⟩
        rw [h4 e hndL.1, lookupD_setKey_self]
      · have hne : e ≠ e₀ := fun hh => hndL.1 (hh ▸ herest)
        have hv1 : lookupD (delKey (setKey mdx "pymdownx.extra"
            (.dict (setKey em e₀ v₀))) e₀) e = some v := by
          rw [lookupD_delKey_ne hne, lookupD_setKey_ne _ ?hke]
          · exact hv
          case hke =>
            intro hh
            exact hex.2 (hh ▸ herest)
        exact ih h' (nodup_keysOf_delKey _ (nodup_keysOf_setKey _ _ hnd)) hex.2 hndL.2
          herest hv1

theorem on_config_some_elim {tmpDir : String} {c : Config}
    {w : List (String × String)} {c' : Config}
    (h : on_config tmpDir c = some (w, c')) :
    ∃ mdx1 theme0 ps ps' exts1 mdx2 mdx4,
      merge_configs core_configs (c.mdx_configs.getD []) = some mdx1 ∧
      c.theme = some theme0 ∧
      c.plugins = some ps ∧
      augmentPlugins ps = some ps' ∧
      applyMergeExtensions coreExtensionDefaults (c.markdown_extensions.getD []) mdx1
        = some (exts1, mdx2) ∧
      redistribute extra_extensions
        (if memKey mdx2 "pymdownx.extra" then mdx2
         else setKey mdx2 "pymdownx.extra" (.dict [])) = some mdx4 ∧
      w = [(tmpDir ++ "/techdocs_metadata.json", techdocsMetadataTemplate)] ∧
      c' = { c with
             theme := some (augmentTheme tmpDir theme0)
             plugins := some ps'
             markdown_extensions := some exts1
             mdx_configs := some mdx4 } := by
  unfold on_config at h
  cases h1 : merge_configs core_configs (c.mdx_configs.getD []) with
  | none => simp [h1] at h
  | some mdx1 =>
    simp only [h1] at h
    cases h2 : c.theme with
    | none => simp [h2] at h
    | some theme0 =>
      simp only [h2] at h
      cases h3 : c.plugins with
      | none => simp [h3] at h
      | some ps =>
        simp only [h3] at h
        cases h4 : augmentPlugins ps with
        | none => simp [h4] at h
        | some ps' =>
          simp only [h4] at h
          cases h5 : applyMergeExtensions coreExtensionDefaults
              (c.markdown_extensions.getD []) mdx1 with
          | none => simp [h5] at h
          | some s =>
            obtain ⟨exts1, mdx2⟩ := s
            simp only [h5] at h
            cases h6 : redistribute extra_extensions
                (if memKey mdx2 "pymdownx.extra" then mdx2
                 else setKey mdx2 "pymdownx.extra" (.dict [])) with
            | none => simp [h6] at h
            | some mdx4 =>
              simp only [h6, Option.some.injEq, Prod.mk.injEq] at h
              exact ⟨mdx1, theme0, ps, ps', exts1, mdx2, mdx4, rfl, rfl, rfl, h4, h5, h6,
                h.1.symm, h.2.symm⟩

/-! ### Claim theorems -/

theorem mem_insertTemplate_self (l : List String) (x : String) : x ∈ insertTemplate l x := by
  unfold insertTemplate
  split
  · assumption
  · simp

/-- A small concrete configuration used to instantiate the theorems: a
non-default theme, the plugin's own registry entry, one user extension and
user-supplied option blocks for the snippets and betterem extensions. -/
def sampleTheme : Theme :=
  { name := "mkdocs"
    features := none
    palette := [("scheme", .str "x")]
    static_templates := []
    dirs := ["base"] }

def sampleConfig : Config :=
  { theme := some sampleTheme
    plugins := some [("techdocs-core", { kind := .techdocsCore, cfg := [] })]
    markdown_extensions := some ["toc"]
    mdx_configs := some
      [ ("pymdownx.snippets", .dict [("restrict_base_path", .bool false)])
      , ("pymdownx.betterem", .dict [("smart_enable", .str "none")]) ]
    rest := [("site_name", .str "Docs"), ("site_description", .str "D")] }

/-- C9: `on_config` writes a file named `techdocs_metadata.json` into the
Augmenter's temporary directory whose content is the unevaluated template
expression serializing `site_name` and `site_description` as a JSON object,
registers that file name as a static template, and appends the temporary
directory to the theme's search-path (`dirs`) list. -/
theorem c9_metadata_file (tmpDir : String) (c : Config)
    (w : List (String × String)) (c' : Config)
    (h : on_config tmpDir c = some (w, c')) :
    w = [(tmpDir ++ "/techdocs_metadata.json", techdocsMetadataTemplate)] ∧
    ∃ t, c'.theme = some t ∧
      "techdocs_metadata.json" ∈ t.static_templates ∧ tmpDir ∈ t.dirs := by
  obtain ⟨mdx1, theme0, ps, ps', exts1, mdx2, mdx4, h1, h2, h3, h4, h5, h6, hw, hc⟩ :=
    on_config_some_elim h
  subst hc
  refine ⟨hw, augmentTheme tmpDir theme0, rfl, ?_, ?_⟩
  · simp only [augmentTheme]
    exact mem_insertTemplate_self _ _
  · simp [augmentTheme]

/-- C9 witness: the theorem instantiated at `sampleConfig`. -/
theorem c9_metadata_file_witness :
    ∃ w c', on_config "/tmp/tdc" sampleConfig = some (w, c') ∧
      (w = [("/tmp/tdc" ++ "/techdocs_metadata.json", techdocsMetadataTemplate)] ∧
       ∃ t, c'.theme = some t ∧
         "techdocs_metadata.json" ∈ t.static_templates ∧ "/tmp/tdc" ∈ t.dirs) := by
  refine ⟨_, _, rfl, ?_⟩
  exact c9_metadata_file "/tmp/tdc" sampleConfig _ _ rfl

/-- C10: `on_config` returns the configuration it was given, mutated in place
only at the keys `theme`, `plugins`, `markdown_extensions` and `mdx_configs`:
every other key of the mapping (`site_name`, `site_description`, ...) is left
unchanged. -/
theorem c10_frame (tmpDir : String) (c : Config)
    (w : List (String × String)) (c' : Config)
    (h : on_config tmpDir c = some (w, c')) :
    c'.rest = c.rest ∧ ∀ k, lookupD c'.rest k = lookupD c.rest k := by
  obtain ⟨mdx1, theme0, ps, ps', exts1, mdx2, mdx4, h1, h2, h3, h4, h5, h6, hw, hc⟩ :=
    on_config_some_elim h
  subst hc
  exact ⟨rfl, fun k => rfl⟩

/-- C10 witness: the theorem instantiated at `sampleConfig`. -/
theorem c10_frame_witness :
    ∃ w c', on_config "/tmp/tdc2" sampleConfig = some (w, c') ∧
      (c'.rest = sampleConfig.rest ∧
       ∀ k, lookupD c'.rest k = lookupD sampleConfig.rest k) := by
  refine ⟨_, _, rfl, ?_⟩
  exact c10_frame "/tmp/tdc2" sampleConfig _ _ rfl

/-- C2: after `on_config`, the theme's name is the fixed default, its features
list contains both required identifiers, its palette is empty, and a
configuration whose theme name differed from the default had its theme replaced
by the freshly constructed (then augmented) default theme descriptor. -/
theorem c2_theme_invariant (tmpDir : String) (c : Config)
    (w : List (String × String)) (c' : Config)
    (h : on_config tmpDir c = some (w, c')) :
    ∃ t, c'.theme = some t ∧ t.name = TECHDOCS_DEFAULT_THEME ∧
      (∃ fs, t.features = some fs ∧
        "navigation.footer" ∈ fs ∧ "content.action.edit" ∈ fs) ∧
      t.palette = [] ∧
      (∀ t0, c.theme = some t0 → t0.name ≠ TECHDOCS_DEFAULT_THEME →
        t = augmentTheme tmpDir defaultTheme) := by
  obtain ⟨mdx1, theme0, ps, ps', exts1, mdx2, mdx4, h1, h2, h3, h4, h5, h6, hw, hc⟩ :=
    on_config_some_elim h
  subst hc
  refine ⟨augmentTheme tmpDir theme0, rfl, ?_, ?_, by simp [augmentTheme], ?_⟩
  · by_cases hn : theme0.name ≠ TECHDOCS_DEFAULT_THEME
    · simp [augmentTheme, hn, defaultTheme]
    · push_neg at hn
      simp [augmentTheme, hn]
  · exact ⟨_, rfl, by simp, by simp⟩
  · intro t0 h0 hne
    rw [h2] at h0
    injection h0 with h0
    subst h0
    have hne' : theme0.name ≠ "material" := by simpa [TECHDOCS_DEFAULT_THEME] using hne
    simp [augmentTheme, hne', defaultTheme, TECHDOCS_DEFAULT_THEME]

/-- C2 witness: the theorem instantiated at `sampleConfig` (whose theme name
`mkdocs` differs from the default). -/
theorem c2_theme_invariant_witness :
    ∃ w c', on_config "/tmp/tdc3" sampleConfig = some (w, c') ∧
      (∃ t, c'.theme = some t ∧ t.name = TECHDOCS_DEFAULT_THEME ∧
        (∃ fs, t.features = some fs ∧
          "navigation.footer" ∈ fs ∧ "content.action.edit" ∈ fs) ∧
        t.palette = [] ∧
        (∀ t0, sampleConfig.theme = some t0 → t0.name ≠ TECHDOCS_DEFAULT_THEME →
          t = augmentTheme "/tmp/tdc3" defaultTheme)) := by
  refine ⟨_, _, rfl, ?_⟩
  exact c2_theme_invariant "/tmp/tdc3" sampleConfig _ _ rfl

/-- A plain default-named theme descriptor for concrete instantiations. -/
def plainMaterialTheme : Theme :=
  { name := "material"
    features := none
    palette := []
    static_templates := []
    dirs := [] }

/-- A configuration whose mapping lacks the `theme` key (all other keys present
and well-formed). -/
def c7NoTheme : Config :=
  { theme := none
    plugins := some [("techdocs-core", { kind := .techdocsCore, cfg := [] })]
    markdown_extensions := some []
    mdx_configs := some []
    rest := [] }

/-- A configuration whose mapping lacks the `plugins` key (all other keys
present and well-formed). -/
def c7NoPlugins : Config :=
  { theme := some plainMaterialTheme
    plugins := none
    markdown_extensions := some []
    mdx_configs := some []
    rest := [] }

set_option maxHeartbeats 1000000 in
/-- C7 counterexample: `config["theme"]` is read without any presence check, so
`on_config` fails (KeyError) on a configuration that merely lacks the `theme`
key — refuting the claim that every host key read by `on_config` is defended by
an `if key not in config` check before first use. -/
theorem c7_counterexample : on_config "/tmp/tdc" c7NoTheme = none := rfl

/-- `on_config` reads only the five record components, with the two defended
keys read through their empty defaults. -/
theorem on_config_congr (tmpDir : String) (c₁ c₂ : Config)
    (ht : c₁.theme = c₂.theme) (hp : c₁.plugins = c₂.plugins)
    (hme : c₁.markdown_extensions.getD [] = c₂.markdown_extensions.getD [])
    (hmx : c₁.mdx_configs.getD [] = c₂.mdx_configs.getD [])
    (hr : c₁.rest = c₂.rest) :
    on_config tmpDir c₁ = on_config tmpDir c₂ := by
  obtain ⟨t₁, p₁, me₁, mx₁, r₁⟩ := c₁
  obtain ⟨t₂, p₂, me₂, mx₂, r₂⟩ := c₂
  dsimp only at ht hp hme hmx hr
  subst ht
  subst hp
  subst hr
  unfold on_config
  dsimp only
  rw [hmx, hme]

/-- C7 amended: only `mdx_configs` and `markdown_extensions` are defended by
presence checks (their absence behaves exactly like the empty default), while
`theme` and `plugins` are read without presence checks, so `on_config` fails
whenever either of those keys is missing. -/
theorem c7_presence_checks (tmpDir : String) (c : Config) :
    (c.theme = none → on_config tmpDir c = none) ∧
    (c.plugins = none → on_config tmpDir c = none) ∧
    on_config tmpDir { c with mdx_configs := none }
      = on_config tmpDir { c with mdx_configs := some [] } ∧
    on_config tmpDir { c with markdown_extensions := none }
      = on_config tmpDir { c with markdown_extensions := some [] } := by
  refine ⟨?_, ?_, on_config_congr _ _ _ rfl rfl rfl rfl rfl,
    on_config_congr _ _ _ rfl rfl rfl rfl rfl⟩
  · intro ht
    unfold on_config
    dsimp only
    rw [ht]
    cases merge_configs core_configs (c.mdx_configs.getD []) <;> rfl
  · intro hp
    unfold on_config
    dsimp only
    rw [hp]
    cases merge_configs core_configs (c.mdx_configs.getD []) with
    | none => rfl
    | some mdx1 =>
      cases c.theme <;> rfl

/-- C7 witness: the amended theorem instantiated at the two concrete
key-missing configurations. -/
theorem c7_presence_checks_witness :
    on_config "/tmp/tdc4" c7NoTheme = none ∧ on_config "/tmp/tdc4" c7NoPlugins = none :=
  ⟨(c7_presence_checks "/tmp/tdc4" c7NoTheme).1 rfl,
   (c7_presence_checks "/tmp/tdc4" c7NoPlugins).2.1 rfl⟩

/-- C4: with the plugin's own configuration block setting `use_material_search`
to true, the plugin installed under the `search` key is the Material variant;
with it false or absent, the default variant (the option defaults to false). -/
theorem c4_search_variant (tmpDir : String) (c : Config)
    (w : List (String × String)) (c' : Config)
    (ps : PyDict Plugin) (tdc : Plugin)
    (h : on_config tmpDir c = some (w, c'))
    (hps : c.plugins = some ps)
    (htdc : lookupD ps "techdocs-core" = some tdc) :
    ∃ ps', c'.plugins = some ps' ∧
      (lookupD tdc.cfg "use_material_search" = some (.bool true) →
        (lookupD ps' "search").map Plugin.kind = some .searchMaterial) ∧
      ((lookupD tdc.cfg "use_material_search" = some (.bool false) ∨
        lookupD tdc.cfg "use_material_search" = none) →
        (lookupD ps' "search").map Plugin.kind = some .searchDefault) := by
  obtain ⟨mdx1, theme0, ps₀, ps', exts1, mdx2, mdx4, h1, h2, h3, h4, h5, h6, hw, hc⟩ :=
    on_config_some_elim h
  subst hc
  rw [hps] at h3
  injection h3 with h3
  subst h3
  obtain ⟨tdc₀, htdc₀, hps'⟩ := augmentPlugins_spec h4
  rw [htdc] at htdc₀
  injection htdc₀ with htdc₀
  subst htdc₀
  subst hps'
  have hlook : ∀ sp : Plugin,
      lookupD (setKey (setKey (delKey ps "techdocs-core") "search" sp)
        "monorepo" { kind := .monorepo, cfg := [] }) "search" = some sp := by
    intro sp
    rw [lookupD_setKey_ne _ (by decide), lookupD_setKey_self]
  refine ⟨_, rfl, ?_, ?_⟩
  · intro hu
    rw [hu]
    simp only [Option.getD_some, truthy, if_true]
    rw [hlook]
    rfl
  · intro hu
    rcases hu with hu | hu <;>
      · rw [hu]
        simp only [Option.getD_some, Option.getD_none, truthy, Bool.false_eq_true, if_false]
        rw [hlook]
        rfl

/-- C4 witness: at a configuration whose `techdocs-core` entry sets
`use_material_search: true`, and at `sampleConfig` (option absent). -/
def c4MaterialConfig : Config :=
  { theme := some plainMaterialTheme
    plugins := some [("techdocs-core",
      { kind := .techdocsCore, cfg := [("use_material_search", .bool true)] })]
    markdown_extensions := some []
    mdx_configs := some []
    rest := [] }

theorem c4_search_variant_witness :
    ∃ w c', on_config "/tmp/tdc5" c4MaterialConfig = some (w, c') ∧
      (∃ ps', c'.plugins = some ps' ∧
        (lookupD (Plugin.mk .techdocsCore [("use_material_search", .bool true)]).cfg
            "use_material_search" = some (.bool true) →
          (lookupD ps' "search").map Plugin.kind = some .searchMaterial) ∧
        ((lookupD (Plugin.mk .techdocsCore [("use_material_search", .bool true)]).cfg
            "use_material_search" = some (.bool false) ∨
          lookupD (Plugin.mk .techdocsCore [("use_material_search", .bool true)]).cfg
            "use_material_search" = none) →
          (lookupD ps' "search").map Plugin.kind = some .searchDefault)) := by
  refine ⟨_, _, rfl, ?_⟩
  exact c4_search_variant "/tmp/tdc5" c4MaterialConfig _ _ _ _ rfl rfl rfl

/-- C3: when the input registry contains the plugin's own `techdocs-core` entry,
the output registry no longer contains it and holds exactly one entry under
`search` and exactly one under `monorepo`, overwriting any prior entries. -/
theorem c3_plugin_registry (tmpDir : String) (c : Config)
    (w : List (String × String)) (c' : Config)
    (ps : PyDict Plugin)
    (h : on_config tmpDir c = some (w, c'))
    (hps : c.plugins = some ps)
    (hmem : memKey ps "techdocs-core" = true)
    (hnd : (keysOf ps).Nodup) :
    ∃ ps', c'.plugins = some ps' ∧
      lookupD ps' "techdocs-core" = none ∧
      countKey ps' "search" = 1 ∧ countKey ps' "monorepo" = 1 := by
  obtain ⟨mdx1, theme0, ps₀, ps', exts1, mdx2, mdx4, h1, h2, h3, h4, h5, h6, hw, hc⟩ :=
    on_config_some_elim h
  subst hc
  rw [hps] at h3
  injection h3 with h3
  subst h3
  obtain ⟨tdc, htdc, hps'⟩ := augmentPlugins_spec h4
  subst hps'
  refine ⟨_, rfl, ?_, ?_, ?_⟩
  · rw [lookupD_setKey_ne _ (by decide), lookupD_setKey_ne _ (by decide),
      lookupD_delKey_self hnd]
  · rw [countKey_setKey_ne _ (by decide), countKey_setKey_self,
      countKey_delKey_ne (by decide)]
    have := countKey_le_one "search" hnd
    omega
  · rw [countKey_setKey_self, countKey_setKey_ne _ (by decide),
      countKey_delKey_ne (by decide)]
    have := countKey_le_one "monorepo" hnd
    omega

/-- C3 witness: the theorem instantiated at `sampleConfig`. -/
theorem c3_plugin_registry_witness :
    ∃ w c', on_config "/tmp/tdc6" sampleConfig = some (w, c') ∧
      (∃ ps', c'.plugins = some ps' ∧
        lookupD ps' "techdocs-core" = none ∧
        countKey ps' "search" = 1 ∧ countKey ps' "monorepo" = 1) := by
  refine ⟨_, _, rfl, ?_⟩
  exact c3_plugin_registry "/tmp/tdc6" sampleConfig _ _ _ rfl rfl rfl (by decide)

/-- After the core merge, the snippets entry is a dict forcing the
path-restriction flag true. -/
theorem mc_snip {u u' : PyDict Value} (h : merge_configs core_configs u = some u') :
    ∃ m, lookupD u' "pymdownx.snippets" = some (.dict m) ∧
      lookupD m "restrict_base_path" = some (.bool true) := by
  rcases merge_configs_core_cases h with ⟨h0, rfl⟩ | ⟨m0, h0, rfl⟩
  · exact ⟨_, lookupD_setKey_self _ _ _, rfl⟩
  · exact ⟨_, lookupD_setKey_self _ _ _, lookupD_setKey_self _ _ _⟩

/-- Looking up any key other than `pymdownx.extra` is unaffected by the
ensure-entry step before redistribution. -/
theorem lookupD_extra_ensure {mdx : PyDict Value} {k : String} (hk : k ≠ "pymdownx.extra") :
    lookupD (if memKey mdx "pymdownx.extra" then mdx
             else setKey mdx "pymdownx.extra" (.dict [])) k = lookupD mdx k := by
  split
  · rfl
  · exact lookupD_setKey_ne _ hk

/-- C1: after `on_config`, the snippets extension's option mapping in
`mdx_configs` maps `restrict_base_path` to true, regardless of any prior
user-supplied value (the core merge is core-wins at every leaf). -/
theorem c1_snippets_restrict (tmpDir : String) (c : Config)
    (w : List (String × String)) (c' : Config)
    (h : on_config tmpDir c = some (w, c')) :
    ∃ mdx m, c'.mdx_configs = some mdx ∧
      lookupD mdx "pymdownx.snippets" = some (.dict m) ∧
      lookupD m "restrict_base_path" = some (.bool true) := by
  obtain ⟨mdx1, theme0, ps, ps', exts1, mdx2, mdx4, h1, h2, h3, h4, h5, h6, hw, hc⟩ :=
    on_config_some_elim h
  subst hc
  obtain ⟨m, hm1, hrbp⟩ := mc_snip h1
  have hmem : ("pymdownx.snippets", ([] : PyDict Value)) ∈ coreExtensionDefaults := by
    simp [coreExtensionDefaults]
  have h2' := (ame_entry h5 (by decide) hmem).2.1 m hm1
  rw [updateD_nil] at h2'
  have h3' : lookupD mdx4 "pymdownx.snippets" = some (.dict m) := by
    rw [redis_lookup_ne h6 (by decide) (by decide), lookupD_extra_ensure (by decide), h2']
  exact ⟨mdx4, m, rfl, h3', hrbp⟩

/-- C1 witness: the theorem instantiated at `sampleConfig`, whose user
configuration sets `restrict_base_path: false`. -/
theorem c1_snippets_restrict_witness :
    ∃ w c', on_config "/tmp/tdc7" sampleConfig = some (w, c') ∧
      (∃ mdx m, c'.mdx_configs = some mdx ∧
        lookupD mdx "pymdownx.snippets" = some (.dict m) ∧
        lookupD m "restrict_base_path" = some (.bool true)) := by
  refine ⟨_, _, rfl, ?_⟩
  exact c1_snippets_restrict "/tmp/tdc7" sampleConfig _ _ rfl

/-- The extension list and option state of the C5 counterexample: the user lists
`toc` and sets `permalink: false`. -/
def c5Exts : List String := ["toc"]

def c5Mdx : PyDict Value := [("toc", .dict [("permalink", .bool false)])]

/-- C5 counterexample: applying the extension-merge step a second time yields
exactly the same state (ordering AND option mappings) as applying it once, even
on a configuration whose user option was overwritten by a default — the option
merge mechanically reapplies the defaults but overwrites with identical values,
so it IS idempotent, refuting the claim's "NOT idempotent" part. -/
theorem c5_counterexample :
    ∃ s1, applyMergeExtensions coreExtensionDefaults c5Exts c5Mdx = some s1 ∧
      applyMergeExtensions coreExtensionDefaults s1.1 s1.2 = some s1 ∧
      lookupD s1.2 "toc" = some (.dict [("permalink", .bool true)]) ∧
      lookupD c5Mdx "toc" = some (.dict [("permalink", .bool false)]) :=
  ⟨_, rfl, rfl, rfl, rfl⟩

/-- C5 amended: applying the extension-merge step (`merge_extension` over the
fixed default list) twice yields the same `markdown_extensions` ordering AND the
same option mappings as applying it once: the defaults are mechanically
reapplied on the second application, but every reapplied write stores the value
already present, so the step is idempotent in full. -/
theorem c5_step_idempotent (exts : List String) (mdx : PyDict Value)
    (exts' : List String) (mdx' : PyDict Value)
    (h : applyMergeExtensions coreExtensionDefaults exts mdx = some (exts', mdx')) :
    applyMergeExtensions coreExtensionDefaults exts' mdx' = some (exts', mdx') := by
  apply ame_noop
  exact ame_post h (by decide) (by decide)

/-- C5 witness: the amended theorem instantiated at the counterexample state. -/
theorem c5_step_idempotent_witness :
    ∃ exts' mdx', applyMergeExtensions coreExtensionDefaults c5Exts c5Mdx
        = some (exts', mdx') ∧
      applyMergeExtensions coreExtensionDefaults exts' mdx' = some (exts', mdx') := by
  refine ⟨_, _, rfl, ?_⟩
  exact c5_step_idempotent c5Exts c5Mdx _ _ rfl

/-- C8: for every "extra" sub-extension identifier with an option block in
`mdx_configs` before augmentation, after `on_config` the top-level entry is gone
and the block appears under the `pymdownx.extra` entry at the identifier's key. -/
theorem c8_extra_redistribution (tmpDir : String) (c : Config)
    (w : List (String × String)) (c' : Config)
    (h : on_config tmpDir c = some (w, c'))
    (hnd : (keysOf (c.mdx_configs.getD [])).Nodup)
    (e : String) (he : e ∈ extra_extensions) (v : Value)
    (hv : lookupD (c.mdx_configs.getD []) e = some v) :
    ∃ mdx, c'.mdx_configs = some mdx ∧ lookupD mdx e = none ∧
      ∃ em, lookupD mdx "pymdownx.extra" = some (.dict em) ∧ lookupD em e = some v := by
  obtain ⟨mdx1, theme0, ps, ps', exts1, mdx2, mdx4, h1, h2, h3, h4, h5, h6, hw, hc⟩ :=
    on_config_some_elim h
  subst hc
  have hfacts : ∀ x ∈ extra_extensions, x ≠ "pymdownx.snippets" ∧
      x ∉ keysOf coreExtensionDefaults ∧ x ≠ "pymdownx.extra" := by decide
  obtain ⟨hsnip, hced, hextra⟩ := hfacts e he
  have hv1 : lookupD mdx1 e = some v := by
    rcases merge_configs_core_cases h1 with ⟨h0, rfl⟩ | ⟨m0, h0, rfl⟩ <;>
      · rw [lookupD_setKey_ne _ hsnip]
        exact hv
  have hnd1 : (keysOf mdx1).Nodup := by
    rcases merge_configs_core_cases h1 with ⟨h0, rfl⟩ | ⟨m0, h0, rfl⟩ <;>
      exact nodup_keysOf_setKey _ _ hnd
  have hv2 : lookupD mdx2 e = some v := by
    rw [ame_lookup_not_mem h5 hced]
    exact hv1
  have hnd2 := ame_nodup h5 hnd1
  have hv3 : lookupD (if memKey mdx2 "pymdownx.extra" then mdx2
      else setKey mdx2 "pymdownx.extra" (.dict [])) e = some v := by
    rw [lookupD_extra_ensure hextra]
    exact hv2
  have hnd3 : (keysOf (if memKey mdx2 "pymdownx.extra" then mdx2
      else setKey mdx2 "pymdownx.extra" (.dict []))).Nodup := by
    split
    · exact hnd2
    · exact nodup_keysOf_setKey _ _ hnd2
  obtain ⟨hgone, em, hem, heme⟩ := redis_member h6 hnd3 (by decide) (by decide) he hv3
  exact ⟨mdx4, rfl, hgone, em, hem, heme⟩

/-- C8 witness: the theorem instantiated at `sampleConfig`, whose user
configuration holds a top-level option block for `pymdownx.betterem`. -/
theorem c8_extra_redistribution_witness :
    ∃ w c', on_config "/tmp/tdc8" sampleConfig = some (w, c') ∧
      (∃ mdx, c'.mdx_configs = some mdx ∧ lookupD mdx "pymdownx.betterem" = none ∧
        ∃ em, lookupD mdx "pymdownx.extra" = some (.dict em) ∧
          lookupD em "pymdownx.betterem" = some (.dict [("smart_enable", .str "none")])) := by
  refine ⟨_, _, rfl, ?_⟩
  exact c8_extra_redistribution "/tmp/tdc8" sampleConfig _ _ rfl (by decide)
    "pymdownx.betterem" (by decide) _ rfl

/-- The C6 counterexample configuration: `toc` listed twice by the user, and a
user option `restrict_base_path: false` for snippets (whose fixed default
mapping is empty, so no default key collides with it). -/
def c6Config : Config :=
  { theme := some plainMaterialTheme
    plugins := some [("techdocs-core", { kind := .techdocsCore, cfg := [] })]
    markdown_extensions := some ["toc", "toc"]
    mdx_configs := some [("pymdownx.snippets", .dict [("restrict_base_path", .bool false)])]
    rest := [] }

/-- C6 counterexample: after `on_config` on `c6Config`, the required identifier
`toc` appears twice in `markdown_extensions` (not at most once), and the
user-supplied snippets option `restrict_base_path: false` is not preserved even
though no key of the snippets default mapping (which is empty) collides with it
— it is forced to true by the core merge. -/
theorem c6_counterexample :
    ∃ w c' exts mdx m,
      on_config "/tmp/tdc9" c6Config = some (w, c') ∧
      c'.markdown_extensions = some exts ∧
      ¬ List.count "toc" exts ≤ 1 ∧
      ("pymdownx.snippets", ([] : PyDict Value)) ∈ coreExtensionDefaults ∧
      lookupD (c6Config.mdx_configs.getD []) "pymdownx.snippets"
        = some (.dict [("restrict_base_path", .bool false)]) ∧
      c'.mdx_configs = some mdx ∧
      lookupD mdx "pymdownx.snippets" = some (.dict m) ∧
      lookupD m "restrict_base_path" = some (.bool true) := by
  refine ⟨_, _, _, _, _, rfl, rfl, ?_, ?_, rfl, rfl, rfl, rfl⟩
  · decide
  · simp [coreExtensionDefaults]

/-- The entry of a list whose keys are in the fixed merge list has, after the
extension-merge stage, a dict entry existing in `mdx_configs`. -/
theorem ame_entry_exists {L : List (String × PyDict Value)} {exts exts' : List String}
    {mdx mdx' : PyDict Value}
    (h : applyMergeExtensions L exts mdx = some (exts', mdx'))
    (hnd : (keysOf L).Nodup) {e : String} {d : PyDict Value} (hmem : (e, d) ∈ L) :
    ∃ mm, lookupD mdx' e = some (.dict mm) := by
  have hent := ame_entry h hnd hmem
  cases h0 : lookupD mdx e with
  | none => exact ⟨d, hent.1 h0⟩
  | some v =>
    obtain ⟨m, rfl⟩ := hent.2.2 v h0
    exact ⟨updateD m d, hent.2.1 m h0⟩

/-- C6 amended: after `on_config`, every required extension identifier is
present in `markdown_extensions` and appears at most once PROVIDED it appeared
at most once in the input; its `mdx_configs` entry is a dict containing the
fixed defaults (defaults win at the leaf), its other user-supplied options are
preserved — EXCEPT that the core merge forces the snippets entry's
`restrict_base_path` to true even though it collides with no default key, and
the `pymdownx.extra` entry additionally gains the redistributed extra
sub-extension keys. -/
theorem c6_extension_invariant (tmpDir : String) (c : Config)
    (w : List (String × String)) (c' : Config)
    (h : on_config tmpDir c = some (w, c'))
    (e : String) (d : PyDict Value) (hed : (e, d) ∈ coreExtensionDefaults) :
    ∃ exts mdx, c'.markdown_extensions = some exts ∧ c'.mdx_configs = some mdx ∧
      e ∈ exts ∧
      (List.count e (c.markdown_extensions.getD []) ≤ 1 → List.count e exts ≤ 1) ∧
      ∃ m, lookupD mdx e = some (.dict m) ∧
        (∀ k vd, lookupD d k = some vd → lookupD m k = some vd) ∧
        (e = "pymdownx.snippets" → lookupD m "restrict_base_path" = some (.bool true)) ∧
        (∀ k, lookupD d k = none →
          ¬(e = "pymdownx.snippets" ∧ k = "restrict_base_path") →
          (e = "pymdownx.extra" → k ∉ extra_extensions) →
          ((∀ m0, lookupD (c.mdx_configs.getD []) e = some (.dict m0) →
             lookupD m k = lookupD m0 k) ∧
           (lookupD (c.mdx_configs.getD []) e = none → lookupD m k = none))) := by
  obtain ⟨mdx1, theme0, ps, ps', exts1, mdx2, mdx4, h1, h2, h3, h4, h5, h6, hw, hc⟩ :=
    on_config_some_elim h
  subst hc
  have hndCED : (keysOf coreExtensionDefaults).Nodup := by decide
  have hdnd : (keysOf d).Nodup :=
    (show ∀ p ∈ coreExtensionDefaults, (keysOf p.2).Nodup by decide) _ hed
  have henotex : e ∉ extra_extensions :=
    (show ∀ p ∈ coreExtensionDefaults, p.1 ∉ extra_extensions by decide) _ hed
  have hdkeysnotex : ∀ k ∈ keysOf d, k ∉ extra_extensions := fun k hk =>
    (show ∀ p ∈ coreExtensionDefaults, ∀ k ∈ keysOf p.2, k ∉ extra_extensions
      by decide) _ hed k hk
  have hent := ame_entry h5 hndCED hed
  -- the ensure-entry step before redistribution is the identity here
  have hexmem : ("pymdownx.extra", [("smart_enable", Value.str "all")])
      ∈ coreExtensionDefaults := by
    simp [coreExtensionDefaults]
  obtain ⟨mex, hmex⟩ := ame_entry_exists h5 hndCED hexmem
  rw [if_pos (memKey_of_lookupD hmex)] at h6
  -- the stage-two entry for e, with its contents at every inner key
  have hstage2 : ∃ m₂, lookupD mdx2 e = some (.dict m₂) ∧
      (∀ k vd, lookupD d k = some vd → lookupD m₂ k = some vd) ∧
      (∀ k, lookupD d k = none →
        lookupD m₂ k = (match lookupD mdx1 e with
                        | some (.dict m₁) => lookupD m₁ k
                        | _ => none)) := by
    cases h0 : lookupD mdx1 e with
    | none =>
      refine ⟨d, hent.1 h0, fun k vd hk => hk, fun k hk => ?_⟩
      simp only [h0]
      exact hk
    | some v =>
      obtain ⟨m₁, rfl⟩ := hent.2.2 v h0
      refine ⟨updateD m₁ d, hent.2.1 m₁ h0, ?_, ?_⟩
      · intro k vd hk
        exact lookupD_updateD_mem hdnd hk
      · intro k hk
        simp only [h0]
        exact lookupD_updateD_not_mem (lookupD_eq_none_iff.mp hk)
  obtain ⟨m₂, hm₂, hA, hB⟩ := hstage2
  -- the stage-one entry agrees with the input entry at every inner key except
  -- the forced snippets flag
  have hstage1 : ∀ k, ¬(e = "pymdownx.snippets" ∧ k = "restrict_base_path") →
      (match lookupD mdx1 e with
       | some (.dict m₁) => lookupD m₁ k
       | _ => none)
      = (match lookupD (c.mdx_configs.getD []) e with
         | some (.dict m0) => lookupD m0 k
         | _ => none) := by
    intro k hnsk
    by_cases hesnip : e = "pymdownx.snippets"
    · subst hesnip
      have hkrbp : k ≠ "restrict_base_path" := fun hh => hnsk ⟨rfl, hh⟩
      rcases merge_configs_core_cases h1 with ⟨h0, hu⟩ | ⟨m0, h0, hu⟩
      · subst hu
        rw [lookupD_setKey_self, h0]
        simp only [lookupD]
        rw [if_neg (Ne.symm hkrbp)]
      · subst hu
        rw [lookupD_setKey_self, h0]
        simp only
        exact lookupD_setKey_ne _ hkrbp
    · have heq : lookupD mdx1 e = lookupD (c.mdx_configs.getD []) e := by
        rcases merge_configs_core_cases h1 with ⟨h0, hu⟩ | ⟨m0, h0, hu⟩ <;>
          · subst hu
            exact lookupD_setKey_ne _ hesnip
      rw [heq]
  -- the snippets entry carries the forced flag at stage two
  have hsnipflag : e = "pymdownx.snippets" →
      lookupD m₂ "restrict_base_path" = some (.bool true) := by
    intro hesnip
    subst hesnip
    have hdempty : d = [] := by
      have := (show ∀ p ∈ coreExtensionDefaults,
          p.1 = "pymdownx.snippets" → p.2.isEmpty = true by decide) _ hed rfl
      exact List.isEmpty_iff.mp this
    subst hdempty
    obtain ⟨m₁, hm₁, hrbp⟩ := mc_snip h1
    have := hent.2.1 m₁ hm₁
    rw [updateD_nil] at this
    rw [hm₂] at this
    injection this with this
    injection this with this
    rw [this]
    exact hrbp
  by_cases hex : e = "pymdownx.extra"
  · subst hex
    obtain ⟨em', hem', hpres⟩ := redis_extra h6 (by decide) hm₂
    refine ⟨exts1, mdx4, rfl, rfl, ame_mem_pair h5 hed,
      fun hcnt => ame_count_le h5 _ hcnt, em', hem', ?_, ?_, ?_⟩
    · intro k vd hk
      have hkne : k ∉ extra_extensions := by
        apply hdkeysnotex
        by_contra hkk
        rw [lookupD_eq_none_iff.mpr hkk] at hk
        exact Option.noConfusion hk
      rw [hpres k hkne]
      exact hA k vd hk
    · intro hesnip
      exact absurd hesnip (by decide)
    · intro k hdk hnsk hkex
      have hkne : k ∉ extra_extensions := hkex rfl
      constructor
      · intro m0 h0
        rw [hpres k hkne, hB k hdk, hstage1 k hnsk, h0]
      · intro h0
        rw [hpres k hkne, hB k hdk, hstage1 k hnsk, h0]
  · have hfinal : lookupD mdx4 e = some (.dict m₂) := by
      rw [redis_lookup_ne h6 henotex hex]
      exact hm₂
    refine ⟨exts1, mdx4, rfl, rfl, ame_mem_pair h5 hed,
      fun hcnt => ame_count_le h5 _ hcnt, m₂, hfinal, hA, hsnipflag, ?_⟩
    intro k hdk hnsk _
    constructor
    · intro m0 h0
      rw [hB k hdk, hstage1 k hnsk, h0]
    · intro h0
      rw [hB k hdk, hstage1 k hnsk, h0]

/-- C6 witness: the amended theorem instantiated at `sampleConfig` and the
required pair `toc` with default `permalink: true`. -/
theorem c6_extension_invariant_witness :
    ∃ w c', on_config "/tmp/tdc10" sampleConfig = some (w, c') ∧
      (∃ exts mdx, c'.markdown_extensions = some exts ∧ c'.mdx_configs = some mdx ∧
        "toc" ∈ exts ∧
        (List.count "toc" (sampleConfig.markdown_extensions.getD []) ≤ 1 →
          List.count "toc" exts ≤ 1) ∧
        ∃ m, lookupD mdx "toc" = some (.dict m) ∧
          (∀ k vd, lookupD [("permalink", Value.bool true)] k = some vd →
            lookupD m k = some vd) ∧
          ("toc" = "pymdownx.snippets" →
            lookupD m "restrict_base_path" = some (.bool true)) ∧
          (∀ k, lookupD [("permalink", Value.bool true)] k = none →
            ¬("toc" = "pymdownx.snippets" ∧ k = "restrict_base_path") →
            ("toc" = "pymdownx.extra" → k ∉ extra_extensions) →
            ((∀ m0, lookupD (sampleConfig.mdx_configs.getD []) "toc" = some (.dict m0) →
               lookupD m k = lookupD m0 k) ∧
             (lookupD (sampleConfig.mdx_configs.getD []) "toc" = none →
               lookupD m k = none)))) := by
  refine ⟨_, _, rfl, ?_⟩
  exact c6_extension_invariant "/tmp/tdc10" sampleConfig _ _ rfl "toc"
    [("permalink", Value.bool true)] (by simp [coreExtensionDefaults])
